import Mathlib

/-!
Shallow embedding of the raidmaster link-collection core
(`src/config.py`, `src/link_collector.py`, `src/message_formatter.py`,
`src/main.py`) together with theorems settling the frozen claims about it.

Strings are modelled as Lean `String` / `List Char`; the Python `dict`
that maps chat ids to link ledgers is modelled as a function
`Int → Option (List LinkRec)`; wall-clock timestamps are passed to the
mutating operations explicitly.  Python's dynamic typing at the public
boundary of `LinkCollector` is modelled by the small value type `PyVal`,
so that the `isinstance`/falsiness validation branches of the source are
part of the embedding.
-/

set_option maxRecDepth 8192

namespace Raidmaster

/-- Python whitespace, as matched by `str.strip()` and by the `\s` class of
the `re` module on `str` patterns (ASCII whitespace, the C1 separators,
NEL, NBSP and the Unicode space/separator code points). -/
def pyIsSpace (c : Char) : Bool :=
  let n := c.toNat
  n == 32 || (decide (9 ≤ n) && decide (n ≤ 13)) ||
    (decide (28 ≤ n) && decide (n ≤ 31)) ||
    n == 0x85 || n == 0xA0 || n == 0x1680 ||
    (decide (0x2000 ≤ n) && decide (n ≤ 0x200A)) ||
    n == 0x2028 || n == 0x2029 || n == 0x202F || n == 0x205F || n == 0x3000

/-- `l` contains no newline character. -/
def noNl (l : List Char) : Bool := l.all (fun c => !(c == '\n'))

/-- Embedding of `re.sub(r'\?.*$', '', s)`: the first `?` whose remaining
suffix is newline-free (up to one trailing newline, which `$` keeps)
starts the removed match; a `?` that is not a match start is kept and
scanning continues behind it. -/
def stripQuerySub : List Char → List Char
  | [] => []
  | c :: rest =>
    if c = '?' then
      if noNl rest then []
      else if rest.getLast? == some '\n' && noNl rest.dropLast then ['\n']
      else c :: stripQuerySub rest
    else c :: stripQuerySub rest

/-- Embedding of Python `str.strip()`: drop leading and trailing
whitespace. -/
def pyStrip (l : List Char) : List Char :=
  ((l.dropWhile pyIsSpace).reverse.dropWhile pyIsSpace).reverse

/-- The cleanup `re.sub(r'\?.*$', '', link.strip())` applied by both
`extract_twitter_links` and `add_link`, on character lists. -/
def cleanChars (l : List Char) : List Char :=
  stripQuerySub (pyStrip l)

/-- The cleanup `re.sub(r'\?.*$', '', link.strip())` on strings. -/
def clean_link (link : String) : String :=
  String.mk (cleanChars link.data)

/-- `needle` occurs at the head of `hay` (list analogue of Python
`str.startswith`). -/
def leadsWith : List Char → List Char → Bool
  | [], _ => true
  | _ :: _, [] => false
  | a :: as, b :: bs => a == b && leadsWith as bs

/-- `needle` occurs as a contiguous substring of `hay` (Python's
`needle in hay`). -/
def hasSub (needle : List Char) : List Char → Bool
  | [] => needle.isEmpty
  | c :: rest => leadsWith needle (c :: rest) || hasSub needle rest

/-- Consume the literal `pre` from the front of `l`, returning the
remainder, or `none` when `l` does not start with `pre`. -/
def chompLit : List Char → List Char → Option (List Char)
  | [], l => some l
  | _ :: _, [] => none
  | p :: ps, c :: cs => if c = p then chompLit ps cs else none

/-- The path part `\/(?:[^\/\s]+)(?:\/[^\s]*)?` of the pattern: a `/`,
then a greedy nonempty run of non-slash non-whitespace characters, then
optionally a second `/` followed by a greedy run of non-whitespace
characters.  Returns the matched path paired with the remainder. -/
def pathAt (l3 : List Char) : Option (List Char × List Char) :=
  match l3 with
  | [] => none
  | c0 :: l4 =>
    if c0 = '/' then
      let seg := l4.takeWhile (fun c => !(c == '/' || pyIsSpace c))
      let l5 := l4.dropWhile (fun c => !(c == '/' || pyIsSpace c))
      if seg.isEmpty then none
      else if l5.head? = some '/' then
        some ('/' :: (seg ++ '/' :: l5.tail.takeWhile (fun c => !(pyIsSpace c))),
              l5.tail.dropWhile (fun c => !(pyIsSpace c)))
      else some ('/' :: seg, l5)
    else none

/-- One scheme/`www.`/host alternative of `TWITTER_LINK_PATTERN`: the three
literals in order, then the path.  Returns the matched prefix paired with
the remainder. -/
def tryCombo (sch www host l : List Char) : Option (List Char × List Char) :=
  (chompLit sch l).bind (fun l1 =>
    (chompLit www l1).bind (fun l2 =>
      (chompLit host l2).bind (fun l3 =>
        (pathAt l3).map (fun p => (sch ++ www ++ host ++ p.1, p.2)))))

/-- The eight scheme/`www.`/host alternatives of `TWITTER_LINK_PATTERN`,
in the backtracking order of the regex engine (greedy `s?`, present
`www.` first, `twitter.com` before `x.com`).  At most one alternative
can succeed at a given position, since the literals are pairwise
incompatible. -/
def comboList : List (List Char × List Char × List Char) :=
  [("https://".data, "www.".data, "twitter.com".data),
   ("https://".data, "www.".data, "x.com".data),
   ("https://".data, [], "twitter.com".data),
   ("https://".data, [], "x.com".data),
   ("http://".data, "www.".data, "twitter.com".data),
   ("http://".data, "www.".data, "x.com".data),
   ("http://".data, [], "twitter.com".data),
   ("http://".data, [], "x.com".data)]

/-- Attempt to match `TWITTER_LINK_PATTERN` at the start of `l`. -/
def matchAt (l : List Char) : Option (List Char × List Char) :=
  comboList.findSome? (fun c => tryCombo c.1 c.2.1 c.2.2 l)

/-- The scan loop of `re.finditer`: try to match at every position, and
restart behind a match.  `fuel` bounds the recursion; every step either
drops one character or a nonempty match, so `fuel = length` is always
sufficient and the function agrees with the unbounded scan. -/
def findAux : Nat → List Char → List (List Char)
  | 0, _ => []
  | _ + 1, [] => []
  | fuel + 1, c :: rest =>
    match matchAt (c :: rest) with
    | some (m, r) => m :: findAux fuel r
    | none => findAux fuel rest

/-- `[m.group(0) for m in re.finditer(TWITTER_LINK_PATTERN, text)]`. -/
def findMatches (l : List Char) : List (List Char) :=
  findAux l.length l

/-- `LinkCollector.extract_twitter_links`: find the regex matches, clean
each one (strip whitespace, drop the query string), and keep those that
still contain one of the two accepted host substrings. -/
def extract_twitter_links (text : String) : List String :=
  let links := findMatches text.data
  (((links.map cleanChars).filter
      (fun c => hasSub "twitter.com".data c || hasSub "x.com".data c)).map
    (fun c => String.mk c))

/-- A naive local timestamp, the part of Python's `datetime` that the core
observes (`datetime.now()` stored in the ledger, rendered by
`strftime("%Y-%m-%d %H:%M")`). -/
structure Timestamp where
  year : Nat
  month : Nat
  day : Nat
  hour : Nat
  minute : Nat
deriving DecidableEq, Repr

/-- One accepted link in one conversation: an entry of the
`(link, username, timestamp)` tuples stored by `LinkCollector`. -/
structure LinkRec where
  link : String
  user : String
  ts : Timestamp
deriving DecidableEq, Repr

/-- `LinkCollector.links`: the dict from chat id to ledger, modelled as a
function with `none` for absent keys. -/
abbrev Store : Type := Int → Option (List LinkRec)

/-- The freshly initialized `LinkCollector` (empty dict). -/
def emptyStore : Store := fun _ => none

/-- Dict update `self.links[chat_id] = led`. -/
def setChat (s : Store) (c : Int) (led : List LinkRec) : Store :=
  fun c' => if c' = c then some led else s c'

/-- Dynamically typed Python values at the `LinkCollector` boundary, enough
to express the `isinstance`/falsiness validation of the source: an int,
a str, or some value of any other type (e.g. `None`). -/
inductive PyVal where
  | int (n : Int)
  | str (s : String)
  | noneV
deriving DecidableEq, Repr

/-- `LinkCollector.add_link` on dynamically typed arguments.  Mirrors the
source: validate `chat_id`/`link`/`username`, lazily create the chat's
ledger, clean the link, scan for a duplicate of the cleaned link, and
otherwise append `(cleaned_link, username, now)`.  Returns the Python
return value paired with the updated store. -/
def add_link_py (s : Store) (chat_id link username : PyVal)
    (now : Timestamp) : Bool × Store :=
  match chat_id with
  | .int c =>
    match link with
    | .str l =>
      if l = "" then (false, s)
      else
        match username with
        | .str u =>
          if u = "" then (false, s)
          else
            let s1 := match s c with
              | some _ => s
              | none => setChat s c []
            let cleaned := clean_link l
            let ledger := (s1 c).getD []
            if ledger.any (fun r => cleaned == r.link) then (false, s1)
            else (true, setChat s1 c (ledger ++ [⟨cleaned, u, now⟩]))
        | _ => (false, s)
    | _ => (false, s)
  | _ => (false, s)

/-- `add_link` on well-typed arguments. -/
def add_link (s : Store) (c : Int) (l u : String) (now : Timestamp) :
    Bool × Store :=
  add_link_py s (.int c) (.str l) (.str u) now

/-- `LinkCollector.get_chat_links` on a dynamically typed chat id.  The
source's per-tuple validation loop (arity and `isinstance` checks on the
stored triples) always passes on the well-typed ledgers of the embedding,
so the result is the stored ledger, or `[]` for an unknown or invalid id. -/
def get_chat_links_py (s : Store) (chat_id : PyVal) : List LinkRec :=
  match chat_id with
  | .int c => (s c).getD []
  | _ => []

/-- `get_chat_links` on a well-typed chat id. -/
def get_chat_links (s : Store) (c : Int) : List LinkRec :=
  get_chat_links_py s (.int c)

/-- `LinkCollector.clear_chat_links` on a dynamically typed chat id:
replace an existing ledger by the empty list and return `True`, return
`False` for an unknown or invalid id. -/
def clear_chat_links_py (s : Store) (chat_id : PyVal) : Bool × Store :=
  match chat_id with
  | .int c =>
    match s c with
    | some _ => (true, setChat s c [])
    | none => (false, s)
  | _ => (false, s)

/-- `clear_chat_links` on a well-typed chat id. -/
def clear_chat_links (s : Store) (c : Int) : Bool × Store :=
  clear_chat_links_py s (.int c)

/-- `html.escape` with its default `quote=True`. -/
def htmlEscape (s : String) : String :=
  String.join (s.data.map (fun c =>
    if c = '&' then "&amp;"
    else if c = '<' then "&lt;"
    else if c = '>' then "&gt;"
    else if c = '"' then "&quot;"
    else if c = '\'' then "&#x27;"
    else String.mk [c]))

/-- Zero-pad a decimal rendering to two digits (`%m`, `%d`, `%H`, `%M`). -/
def pad2 (n : Nat) : String :=
  if n < 10 then "0" ++ toString n else toString n

/-- Zero-pad a decimal rendering to four digits (`%Y`). -/
def pad4 (n : Nat) : String :=
  if n < 10 then "000" ++ toString n
  else if n < 100 then "00" ++ toString n
  else if n < 1000 then "0" ++ toString n
  else toString n

/-- `timestamp.strftime("%Y-%m-%d %H:%M")`. -/
def strftimeYmdHm (t : Timestamp) : String :=
  pad4 t.year ++ "-" ++ pad2 t.month ++ "-" ++ pad2 t.day ++ " " ++
    pad2 t.hour ++ ":" ++ pad2 t.minute

/-- A grouping of links by contributor: the state of the `user_links`
dict built by `format_summary`. -/
abbrev Grouping : Type := List (String × List (String × Timestamp))

/-- `username in user_links`. -/
def containsKey (acc : Grouping) (u : String) : Bool :=
  acc.any (fun p => p.1 == u)

/-- `user_links[username].append(pair)`: extend the entry of key `u`
(present exactly once in the groupings built below). -/
def addToGroup : Grouping → String → String × Timestamp → Grouping
  | [], _, _ => []
  | (k, ps) :: rest, u, pr =>
    if k = u then (k, ps ++ [pr]) :: rest
    else (k, ps) :: addToGroup rest u pr

/-- One iteration of the grouping loop of `format_summary`: create the
key on first appearance (Python dicts preserve insertion order), then
append the `(link, timestamp)` pair. -/
def groupStep (acc : Grouping) (r : LinkRec) : Grouping :=
  if containsKey acc r.user then addToGroup acc r.user (r.link, r.ts)
  else acc ++ [(r.user, [(r.link, r.ts)])]

/-- The `user_links` dict after the grouping loop of `format_summary`. -/
def groupByUser (links : List LinkRec) : Grouping :=
  links.foldl groupStep []

/-- The per-contributor block of `format_summary`. -/
def renderGroup (g : String × List (String × Timestamp)) : String :=
  "👤 " ++ htmlEscape g.1 ++ ":\n" ++
    String.join (g.2.map (fun p =>
      "🔗 " ++ p.1 ++ "\n📅 Shared on: " ++ strftimeYmdHm p.2 ++ "\n\n"))

/-- `MessageFormatter.format_summary`. -/
def format_summary (links : List LinkRec) : String :=
  if links = [] then "No Twitter/X links have been shared yet! 🤔"
  else
    "📊 Twitter/X Links Summary:\n\n" ++
      String.join ((groupByUser links).map renderGroup) ++
      "Use these links to engage and support! 🚀"

/-- `MessageFormatter.format_link_added`. -/
def format_link_added (username : String) : String :=
  let u := if username = "" then "Unknown User" else username
  "✅ Twitter/X link from " ++ htmlEscape u ++ " has been collected!"

/-- `config.SUMMARY_NO_LINKS`. -/
def SUMMARY_NO_LINKS : String :=
  "No Twitter/X links have been shared in this chat yet! 🤔"

/-- `MAX_MESSAGE_LENGTH` in `summary_command`. -/
def MAX_MESSAGE_LENGTH : Nat := 4000

/-- The slicing loop
`[summary[i:i+MAX_MESSAGE_LENGTH] for i in range(0, len(summary), MAX_MESSAGE_LENGTH)]`
on character lists.  `fuel` bounds the recursion; every step drops a
nonempty slice, so `fuel = length` is always sufficient. -/
def chunkAux : Nat → List Char → List (List Char)
  | _, [] => []
  | 0, _ :: _ => []
  | fuel + 1, c :: rest =>
    (c :: rest).take MAX_MESSAGE_LENGTH ::
      chunkAux fuel ((c :: rest).drop MAX_MESSAGE_LENGTH)

/-- The chunking of an oversized summary performed by `summary_command`. -/
def split_message (s : String) : List String :=
  (chunkAux s.data.length s.data).map (fun c => String.mk c)

/-! ### Spec-side definitions

`specGroup` below is *not* a translation of the source: it transcribes the
spec's description of the grouping contract ("group records by contributor,
preserving the first-appearance order of contributors; within a
contributor's group, preserve original input order"), to be compared with
`groupByUser` in the refinement theorem for claim C4. -/

/-- First-appearance-ordered deduplication of a list of names. -/
def dedupFirst (l : List String) : List String :=
  l.foldl (fun acc u => if u ∈ acc then acc else acc ++ [u]) []

/-- The spec's grouping contract: contributors in first-appearance order,
each paired with that contributor's `(link, timestamp)` pairs in input
order. -/
def specGroup (links : List LinkRec) : Grouping :=
  (dedupFirst (links.map (fun r => r.user))).map (fun u =>
    (u, (links.filter (fun r => r.user == u)).map (fun r => (r.link, r.ts))))

/-! ### Lemmas about the extractor -/

theorem chompLit_eq (pre : List Char) :
    ∀ l r, chompLit pre l = some r → l = pre ++ r := by
  induction pre with
  | nil =>
    intro l r h
    simp only [chompLit, Option.some.injEq] at h
    simp [h]
  | cons p ps ih =>
    intro l r h
    cases l with
    | nil => simp [chompLit] at h
    | cons c cs =>
      simp only [chompLit] at h
      by_cases hc : c = p
      · rw [if_pos hc] at h
        have := ih cs r h
        simp [hc, this]
      · rw [if_neg hc] at h
        cases h

theorem takeWhile_append_all (p : Char → Bool) :
    ∀ (a b : List Char), (∀ c ∈ a, p c = true) →
      (a ++ b).takeWhile p = a ++ b.takeWhile p := by
  intro a
  induction a with
  | nil => simp
  | cons x xs ih =>
    intro b h
    have hx : p x = true := h x (by simp)
    simp only [List.cons_append, List.takeWhile_cons, hx, if_true]
    rw [ih b (fun c hc => h c (by simp [hc]))]

theorem dropWhile_eq_of_all_false (p : Char → Bool) (l : List Char)
    (h : ∀ c ∈ l, p c = false) : l.dropWhile p = l := by
  cases l with
  | nil => rfl
  | cons x xs =>
    have hx : p x = false := h x (by simp)
    simp [List.dropWhile_cons, hx]

theorem pyStrip_eq_self (l : List Char)
    (h : ∀ c ∈ l, pyIsSpace c = false) : pyStrip l = l := by
  unfold pyStrip
  rw [dropWhile_eq_of_all_false _ _ h,
    dropWhile_eq_of_all_false _ _ (fun c hc => h c (List.mem_reverse.mp hc)),
    List.reverse_reverse]

theorem stripQuerySub_eq_takeWhile (l : List Char)
    (h : ∀ c ∈ l, ¬ c = '\n') :
    stripQuerySub l = l.takeWhile (fun c => !(c == '?')) := by
  induction l with
  | nil => rfl
  | cons c rest ih =>
    simp only [stripQuerySub, List.takeWhile_cons]
    by_cases hc : c = '?'
    · have hr : noNl rest = true := by
        simp only [noNl, List.all_eq_true]
        intro x hx
        simp [h x (by simp [hx])]
      rw [if_pos hc, if_pos hr]
      simp [hc]
    · rw [if_neg hc]
      have hb : (c == '?') = false := by simp [hc]
      simp only [hb, Bool.not_false, if_true]
      rw [ih (fun x hx => h x (by simp [hx]))]

theorem leadsWith_append_self : ∀ (n b : List Char), leadsWith n (n ++ b) = true := by
  intro n
  induction n with
  | nil => intro b; rfl
  | cons x xs ih => intro b; simp [leadsWith, ih]

theorem hasSub_middle : ∀ (a n b : List Char), hasSub n (a ++ (n ++ b)) = true := by
  intro a
  induction a with
  | nil =>
    intro n b
    rw [List.nil_append]
    cases hn : n ++ b with
    | nil =>
      rcases List.append_eq_nil.mp hn with ⟨h1, _⟩
      simp [h1, hasSub]
    | cons c rest =>
      have hl : leadsWith n (c :: rest) = true := by
        rw [← hn]; exact leadsWith_append_self n b
      rw [hasSub, hl, Bool.true_or]
  | cons x xs ih =>
    intro n b
    rw [List.cons_append, hasSub, ih, Bool.or_true]

theorem mem_findAux : ∀ (fuel : Nat) (l m : List Char),
    m ∈ findAux fuel l → ∃ l' r, matchAt l' = some (m, r) := by
  intro fuel
  induction fuel with
  | zero => intro l m h; simp [findAux] at h
  | succ n ih =>
    intro l m h
    cases l with
    | nil => simp [findAux] at h
    | cons c rest =>
      rw [findAux] at h
      cases hma : matchAt (c :: rest) with
      | none =>
        rw [hma] at h
        exact ih rest m h
      | some pr =>
        obtain ⟨m0, r0⟩ := pr
        rw [hma] at h
        rw [List.mem_cons] at h
        rcases h with rfl | h
        · exact ⟨c :: rest, r0, hma⟩
        · exact ih r0 m h

theorem pathAt_shape (l3 p rest : List Char) (h : pathAt l3 = some (p, rest)) :
    ∃ seg t2, p = '/' :: (seg ++ t2) ∧
      (∀ c ∈ seg, (c == '/' || pyIsSpace c) = false) ∧
      (t2 = [] ∨ ∃ tl, t2 = '/' :: tl ∧ ∀ c ∈ tl, pyIsSpace c = false) := by
  cases l3 with
  | nil => cases h
  | cons c0 l4 =>
    have hsegall : ∀ c ∈ l4.takeWhile (fun c => !(c == '/' || pyIsSpace c)),
        (c == '/' || pyIsSpace c) = false := by
      intro c hc
      simpa using List.mem_takeWhile_imp hc
    simp only [pathAt] at h
    by_cases hc0 : c0 = '/'
    case neg => rw [if_neg hc0] at h; cases h
    rw [if_pos hc0] at h
    by_cases hseg : (l4.takeWhile (fun c => !(c == '/' || pyIsSpace c))).isEmpty
    · rw [if_pos hseg] at h; cases h
    · rw [if_neg hseg] at h
      by_cases hh : (l4.dropWhile (fun c => !(c == '/' || pyIsSpace c))).head? = some '/'
      · rw [if_pos hh] at h
        simp only [Option.some.injEq, Prod.mk.injEq] at h
        refine ⟨l4.takeWhile (fun c => !(c == '/' || pyIsSpace c)),
          '/' :: (l4.dropWhile (fun c => !(c == '/' || pyIsSpace c))).tail.takeWhile
            (fun c => !(pyIsSpace c)), h.1.symm, hsegall, Or.inr ⟨_, rfl, ?_⟩⟩
        intro c hc
        simpa using List.mem_takeWhile_imp hc
      · rw [if_neg hh] at h
        simp only [Option.some.injEq, Prod.mk.injEq] at h
        exact ⟨l4.takeWhile (fun c => !(c == '/' || pyIsSpace c)), [],
          by rw [← h.1]; simp, hsegall, Or.inl rfl⟩

theorem tryCombo_shape (sch www host l m r : List Char)
    (h : tryCombo sch www host l = some (m, r)) :
    ∃ seg t2, m = sch ++ www ++ host ++ '/' :: (seg ++ t2) ∧
      (∀ c ∈ seg, (c == '/' || pyIsSpace c) = false) ∧
      (t2 = [] ∨ ∃ tl, t2 = '/' :: tl ∧ ∀ c ∈ tl, pyIsSpace c = false) := by
  unfold tryCombo at h
  cases h1 : chompLit sch l with
  | none => rw [h1, Option.none_bind] at h; cases h
  | some l1 =>
    rw [h1, Option.some_bind] at h
    cases h2 : chompLit www l1 with
    | none => rw [h2, Option.none_bind] at h; cases h
    | some l2 =>
      rw [h2, Option.some_bind] at h
      cases h3 : chompLit host l2 with
      | none => rw [h3, Option.none_bind] at h; cases h
      | some l3 =>
        rw [h3, Option.some_bind] at h
        cases h4 : pathAt l3 with
        | none => rw [h4] at h; cases h
        | some pr =>
          obtain ⟨p, rest⟩ := pr
          rw [h4, Option.map_some'] at h
          simp only [Option.some.injEq, Prod.mk.injEq] at h
          obtain ⟨seg, t2, hp, hsegall, ht2⟩ := pathAt_shape l3 p rest h4
          refine ⟨seg, t2, ?_, hsegall, ht2⟩
          rw [← h.1, hp]

theorem comboList_facts : ∀ cb ∈ comboList,
    (∀ c ∈ cb.1 ++ cb.2.1, pyIsSpace c = false ∧ ¬ c = '?') ∧
    (∀ c ∈ cb.2.2, pyIsSpace c = false ∧ ¬ c = '?') ∧
    (cb.2.2 = "twitter.com".data ∨ cb.2.2 = "x.com".data) := by decide

theorem matchAt_shape (l m r : List Char) (h : matchAt l = some (m, r)) :
    ∃ a hst t, m = a ++ (hst ++ t) ∧
      (hst = "twitter.com".data ∨ hst = "x.com".data) ∧
      (∀ c ∈ a, pyIsSpace c = false ∧ ¬ c = '?') ∧
      (∀ c ∈ hst, pyIsSpace c = false ∧ ¬ c = '?') ∧
      (∀ c ∈ t, pyIsSpace c = false) := by
  obtain ⟨cb, hmem, hcb⟩ := List.exists_of_findSome?_eq_some h
  obtain ⟨seg, t2, hm, hseg, ht2⟩ := tryCombo_shape cb.1 cb.2.1 cb.2.2 l m r hcb
  obtain ⟨f1, f2, f3⟩ := comboList_facts cb hmem
  refine ⟨cb.1 ++ cb.2.1, cb.2.2, '/' :: (seg ++ t2), ?_, f3, f1, f2, ?_⟩
  · rw [hm]; simp [List.append_assoc]
  · intro c hc
    rw [List.mem_cons] at hc
    rcases hc with rfl | hc
    · decide
    · rw [List.mem_append] at hc
      rcases hc with hc | hc
      · exact (Bool.or_eq_false_iff.mp (hseg c hc)).2
      · rcases ht2 with rfl | ⟨tl, rfl, htl⟩
        · exact absurd hc (List.not_mem_nil c)
        · rw [List.mem_cons] at hc
          rcases hc with rfl | hc
          · decide
          · exact htl c hc

theorem cleanChars_match (l m r : List Char) (h : matchAt l = some (m, r)) :
    (∀ c ∈ m, pyIsSpace c = false) ∧
    cleanChars m = m.takeWhile (fun c => !(c == '?')) ∧
    (hasSub "twitter.com".data (cleanChars m) = true ∨
      hasSub "x.com".data (cleanChars m) = true) ∧
    (∀ c ∈ cleanChars m, pyIsSpace c = false ∧ ¬ c = '?') := by
  obtain ⟨a, hst, t, hm, hdic, ha, hhst, ht⟩ := matchAt_shape l m r h
  have hall : ∀ c ∈ m, pyIsSpace c = false := by
    intro c hc
    rw [hm, List.mem_append] at hc
    rcases hc with hc | hc
    · exact (ha c hc).1
    · rw [List.mem_append] at hc
      rcases hc with hc | hc
      · exact (hhst c hc).1
      · exact ht c hc
  have hnl : ∀ c ∈ m, ¬ c = '\n' := by
    intro c hc heq
    have := hall c hc
    rw [heq] at this
    exact absurd this (by decide)
  have hclean : cleanChars m = m.takeWhile (fun c => !(c == '?')) := by
    unfold cleanChars
    rw [pyStrip_eq_self m hall, stripQuerySub_eq_takeWhile m hnl]
  have hsplit : cleanChars m =
      a ++ (hst ++ t.takeWhile (fun c => !(c == '?'))) := by
    rw [hclean, hm,
      takeWhile_append_all _ a _ (fun c hc => by simp [(ha c hc).2]),
      takeWhile_append_all _ hst _ (fun c hc => by simp [(hhst c hc).2])]
  refine ⟨hall, hclean, ?_, ?_⟩
  · rcases hdic with rfl | rfl
    · exact Or.inl (by rw [hsplit]; exact hasSub_middle a _ _)
    · exact Or.inr (by rw [hsplit]; exact hasSub_middle a _ _)
  · intro c hc
    rw [hclean] at hc
    refine ⟨hall c ((List.takeWhile_sublist _).mem hc), ?_⟩
    have := List.mem_takeWhile_imp hc
    simpa using this

theorem extract_eq_map (text : String) :
    extract_twitter_links text =
      (findMatches text.data).map (fun m => String.mk (cleanChars m)) := by
  have hdef : extract_twitter_links text =
      (((findMatches text.data).map cleanChars).filter
        (fun c => hasSub "twitter.com".data c || hasSub "x.com".data c)).map
        (fun c => String.mk c) := rfl
  rw [hdef]
  have hfil : ((findMatches text.data).map cleanChars).filter
      (fun c => hasSub "twitter.com".data c || hasSub "x.com".data c) =
      (findMatches text.data).map cleanChars := by
    rw [List.filter_eq_self]
    intro a ha
    rw [List.mem_map] at ha
    obtain ⟨m, hm, rfl⟩ := ha
    obtain ⟨l', r, hma⟩ := mem_findAux _ _ _ hm
    rcases (cleanChars_match l' m r hma).2.2.1 with hh | hh <;> simp [hh]
  rw [hfil, List.map_map]
  rfl

/-- **C10.** The defensive host re-check in `extract_twitter_links` never
rejects a regex match: every match still contains one of the two accepted
host substrings after query-string stripping and whitespace trimming, so
the rejection branch is unreachable and `extract` returns exactly the
cleaned matches in order of occurrence. -/
theorem extract_host_recheck_unreachable (text : String) :
    extract_twitter_links text =
      (findMatches text.data).map (fun m => String.mk (cleanChars m)) ∧
    ∀ m ∈ findMatches text.data,
      (hasSub "twitter.com".data (cleanChars m) ||
        hasSub "x.com".data (cleanChars m)) = true :=
  ⟨extract_eq_map text, fun m hm => by
    obtain ⟨l', r, hma⟩ := mem_findAux _ _ _ hm
    rcases (cleanChars_match l' m r hma).2.2.1 with hh | hh <;> simp [hh]⟩

/-- Witness for C10 at a concrete input. -/
theorem extract_host_recheck_unreachable_check :
    "https://x.com/a?b".data ∈ findMatches "see https://x.com/a?b ok".data ∧
    (hasSub "twitter.com".data (cleanChars "https://x.com/a?b".data) ||
      hasSub "x.com".data (cleanChars "https://x.com/a?b".data)) = true :=
  ⟨by decide,
    (extract_host_recheck_unreachable "see https://x.com/a?b ok").2 _ (by decide)⟩

/-- **C2.** Every candidate returned by `extract_twitter_links` is a
regex match with its query-string component stripped (no `?` remains,
everything from the first `?` onward having been removed) and its
surrounding whitespace trimmed (stripping it again is the identity). -/
theorem extract_strips_query_and_trims (text lstr : String)
    (h : lstr ∈ extract_twitter_links text) :
    (∃ m ∈ findMatches text.data, lstr = String.mk (cleanChars m)) ∧
    (∀ c ∈ lstr.data, ¬ c = '?') ∧
    pyStrip lstr.data = lstr.data := by
  rw [extract_eq_map, List.mem_map] at h
  obtain ⟨m, hm, rfl⟩ := h
  obtain ⟨l', r, hma⟩ := mem_findAux _ _ _ hm
  have hc := cleanChars_match l' m r hma
  exact ⟨⟨m, hm, rfl⟩, fun c hcc => (hc.2.2.2 c hcc).2,
    pyStrip_eq_self _ (fun c hcc => (hc.2.2.2 c hcc).1)⟩

/-- Witness for C2 at a concrete input. -/
theorem extract_strips_query_and_trims_check :
    ("https://twitter.com/u" ∈
      extract_twitter_links "go https://twitter.com/u?ref=1 now") ∧
    ((∃ m ∈ findMatches "go https://twitter.com/u?ref=1 now".data,
        "https://twitter.com/u" = String.mk (cleanChars m)) ∧
     (∀ c ∈ "https://twitter.com/u".data, ¬ c = '?') ∧
     pyStrip "https://twitter.com/u".data = "https://twitter.com/u".data) :=
  ⟨by decide, extract_strips_query_and_trims _ _ (by decide)⟩

/-- **C3, counterexample.** The pattern is compiled without
`re.IGNORECASE`, so an accepted-host URL written with upper-case scheme
and host is not matched: `extract` on `"HTTPS://Twitter.COM/foo"` does
not return that link (it returns no candidates at all). -/
theorem extract_uppercase_unmatched :
    extract_twitter_links "HTTPS://Twitter.COM/foo" = [] ∧
    "HTTPS://Twitter.COM/foo" ∉
      extract_twitter_links "HTTPS://Twitter.COM/foo" := by
  constructor
  · decide
  · decide

/-- **C3, amended.** Matching is case-sensitive for the scheme and host:
the all-lower-case forms are matched, upper-case variants are not. -/
theorem extract_case_sensitive :
    extract_twitter_links "https://twitter.com/foo" = ["https://twitter.com/foo"] ∧
    extract_twitter_links "https://x.com/foo" = ["https://x.com/foo"] ∧
    extract_twitter_links "HTTPS://Twitter.COM/foo" = [] ∧
    extract_twitter_links "https://X.com/foo" = [] := by decide

/-! ### Claims about the store -/

/-- **C1, counterexample.** `add_link` validates its inputs before the
dedup check, so with the empty link the *first* call already returns
`False` (not `True`) and stores nothing — the claim's universal
quantification over every link `L` fails at `L = ""`. -/
theorem add_link_empty_link_rejected :
    (add_link emptyStore 0 "" "alice" ⟨2024, 1, 1, 0, 0⟩).1 = false ∧
    get_chat_links (add_link emptyStore 0 "" "alice" ⟨2024, 1, 1, 0, 0⟩).2 0 = [] :=
  ⟨rfl, rfl⟩

/-- **C1, amended.** For every conversation id `c`, *non-empty* links and
contributors, calling `add_link` twice with the same normalized link on a
fresh store returns `true` then `false`, the second call performs no
mutation, and the ledger afterwards has exactly one record. -/
theorem add_link_dedup_contract (c : Int) (L1 L2 u1 u2 : String)
    (t1 t2 : Timestamp) (hL1 : L1 ≠ "") (hu1 : u1 ≠ "") (hL2 : L2 ≠ "")
    (hu2 : u2 ≠ "") (hn : clean_link L1 = clean_link L2) :
    (add_link emptyStore c L1 u1 t1).1 = true ∧
    (add_link (add_link emptyStore c L1 u1 t1).2 c L2 u2 t2).1 = false ∧
    (add_link (add_link emptyStore c L1 u1 t1).2 c L2 u2 t2).2 =
      (add_link emptyStore c L1 u1 t1).2 ∧
    (get_chat_links
      (add_link (add_link emptyStore c L1 u1 t1).2 c L2 u2 t2).2 c).length = 1 := by
  have e1 : add_link emptyStore c L1 u1 t1 =
      (true, setChat (setChat emptyStore c []) c [⟨clean_link L1, u1, t1⟩]) := by
    simp only [add_link, add_link_py]
    rw [if_neg hL1, if_neg hu1]
    simp [emptyStore, setChat]
  have e2 : add_link (add_link emptyStore c L1 u1 t1).2 c L2 u2 t2 =
      (false, (add_link emptyStore c L1 u1 t1).2) := by
    rw [e1]
    simp only [add_link, add_link_py]
    rw [if_neg hL2, if_neg hu2]
    simp [setChat, ← hn]
  refine ⟨by rw [e1], by rw [e2], by rw [e2], ?_⟩
  rw [e2, e1]
  simp [get_chat_links, get_chat_links_py, setChat]

/-- Witness for C1's amended theorem at a concrete input. -/
theorem add_link_dedup_contract_check :
    (add_link emptyStore 1 "https://x.com/a" "alice" ⟨2024, 1, 1, 0, 0⟩).1 = true ∧
    (add_link (add_link emptyStore 1 "https://x.com/a" "alice" ⟨2024, 1, 1, 0, 0⟩).2
      1 "https://x.com/a?q=1" "bob" ⟨2024, 1, 1, 0, 1⟩).1 = false ∧
    (add_link (add_link emptyStore 1 "https://x.com/a" "alice" ⟨2024, 1, 1, 0, 0⟩).2
      1 "https://x.com/a?q=1" "bob" ⟨2024, 1, 1, 0, 1⟩).2 =
      (add_link emptyStore 1 "https://x.com/a" "alice" ⟨2024, 1, 1, 0, 0⟩).2 ∧
    (get_chat_links
      (add_link (add_link emptyStore 1 "https://x.com/a" "alice" ⟨2024, 1, 1, 0, 0⟩).2
        1 "https://x.com/a?q=1" "bob" ⟨2024, 1, 1, 0, 1⟩).2 1).length = 1 :=
  add_link_dedup_contract 1 "https://x.com/a" "https://x.com/a?q=1" "alice" "bob"
    ⟨2024, 1, 1, 0, 0⟩ ⟨2024, 1, 1, 0, 1⟩
    (by decide) (by decide) (by decide) (by decide) (by decide)

/-- **C5.** Every public operation of the core returns its defined
non-throwing result on every input, including malformed (wrong-type or
empty) inputs: `add_link` returns `false` and leaves the store unchanged
on a non-int chat id, a falsy or non-str link, or a falsy or non-str
username; `get_chat_links` returns the empty sequence and
`clear_chat_links` returns `false` on an invalid id; `format_summary`
returns its sentinel on empty input and `format_link_added` substitutes
its placeholder on an empty name. -/
theorem core_defined_results_on_malformed :
    (∀ (s : Store) (q : String) (link username : PyVal) (t : Timestamp),
        add_link_py s (.str q) link username t = (false, s)) ∧
    (∀ (s : Store) (link username : PyVal) (t : Timestamp),
        add_link_py s .noneV link username t = (false, s)) ∧
    (∀ (s : Store) (c n : Int) (username : PyVal) (t : Timestamp),
        add_link_py s (.int c) (.int n) username t = (false, s)) ∧
    (∀ (s : Store) (c : Int) (username : PyVal) (t : Timestamp),
        add_link_py s (.int c) .noneV username t = (false, s)) ∧
    (∀ (s : Store) (c : Int) (username : PyVal) (t : Timestamp),
        add_link_py s (.int c) (.str "") username t = (false, s)) ∧
    (∀ (s : Store) (c : Int) (l : String) (n : Int) (t : Timestamp),
        add_link_py s (.int c) (.str l) (.int n) t = (false, s)) ∧
    (∀ (s : Store) (c : Int) (l : String) (t : Timestamp),
        add_link_py s (.int c) (.str l) .noneV t = (false, s)) ∧
    (∀ (s : Store) (c : Int) (l : String) (t : Timestamp),
        add_link_py s (.int c) (.str l) (.str "") t = (false, s)) ∧
    (∀ (s : Store) (q : String), get_chat_links_py s (.str q) = []) ∧
    (∀ s : Store, get_chat_links_py s .noneV = []) ∧
    (∀ (s : Store) (q : String), clear_chat_links_py s (.str q) = (false, s)) ∧
    (∀ s : Store, clear_chat_links_py s .noneV = (false, s)) ∧
    format_summary [] = "No Twitter/X links have been shared yet! 🤔" ∧
    format_link_added "" = "✅ Twitter/X link from Unknown User has been collected!" := by
  refine ⟨fun s q link username t => rfl, fun s link username t => rfl,
    fun s c n username t => ?_, fun s c username t => ?_,
    fun s c username t => rfl,
    fun s c l n t => ?_, fun s c l t => ?_, fun s c l t => ?_,
    fun s q => rfl, fun s => rfl, fun s q => rfl, fun s => rfl, rfl, rfl⟩
  · simp [add_link_py]
  · simp [add_link_py]
  · by_cases hl : l = "" <;> simp [add_link_py, hl]
  · by_cases hl : l = "" <;> simp [add_link_py, hl]
  · by_cases hl : l = "" <;> simp [add_link_py, hl]

/-- **C7.** `clear_chat_links` on a conversation with an existing ledger
empties it in place: the ledger stays present (mapped to `[]`),
`get_chat_links` afterwards is empty, valid future `add_link` calls start
fresh (return `true`), and the call returns `true`; on a never-seen
conversation, or a wrong-type conversation id, it returns `false` and
changes nothing. -/
theorem clear_chat_links_contract :
    (∀ (s : Store) (c : Int) (led : List LinkRec), s c = some led →
      clear_chat_links s c = (true, setChat s c []) ∧
      setChat s c [] c = some [] ∧
      get_chat_links (setChat s c []) c = [] ∧
      (∀ (L u : String) (t : Timestamp), L ≠ "" → u ≠ "" →
        (add_link (setChat s c []) c L u t).1 = true)) ∧
    (∀ (s : Store) (c : Int), s c = none → clear_chat_links s c = (false, s)) ∧
    (∀ (s : Store) (q : String), clear_chat_links_py s (.str q) = (false, s)) ∧
    (∀ s : Store, clear_chat_links_py s .noneV = (false, s)) := by
  refine ⟨fun s c led h => ⟨?_, ?_, ?_, ?_⟩, fun s c h => ?_,
    fun s q => rfl, fun s => rfl⟩
  · simp [clear_chat_links, clear_chat_links_py, h]
  · simp [setChat]
  · simp [get_chat_links, get_chat_links_py, setChat]
  · intro L u t hL hu
    simp only [add_link, add_link_py]
    rw [if_neg hL, if_neg hu]
    simp [setChat]
  · simp [clear_chat_links, clear_chat_links_py, h]

/-- Witness for C7 at a concrete input. -/
theorem clear_chat_links_contract_check :
    clear_chat_links
        (setChat emptyStore 1 [⟨"https://x.com/a", "alice", ⟨2024, 1, 1, 0, 0⟩⟩]) 1 =
      (true, setChat
        (setChat emptyStore 1 [⟨"https://x.com/a", "alice", ⟨2024, 1, 1, 0, 0⟩⟩]) 1 []) ∧
    get_chat_links
      (setChat
        (setChat emptyStore 1 [⟨"https://x.com/a", "alice", ⟨2024, 1, 1, 0, 0⟩⟩]) 1 []) 1 = [] ∧
    (add_link
      (setChat
        (setChat emptyStore 1 [⟨"https://x.com/a", "alice", ⟨2024, 1, 1, 0, 0⟩⟩]) 1 [])
      1 "https://x.com/b" "bob" ⟨2024, 1, 1, 0, 1⟩).1 = true ∧
    clear_chat_links emptyStore 2 = (false, emptyStore) := by
  have hmain := clear_chat_links_contract.1
    (setChat emptyStore 1 [⟨"https://x.com/a", "alice", ⟨2024, 1, 1, 0, 0⟩⟩]) 1
    [⟨"https://x.com/a", "alice", ⟨2024, 1, 1, 0, 0⟩⟩] (by simp [setChat])
  exact ⟨hmain.1, hmain.2.2.1,
    hmain.2.2.2 "https://x.com/b" "bob" ⟨2024, 1, 1, 0, 1⟩ (by decide) (by decide),
    clear_chat_links_contract.2.1 emptyStore 2 rfl⟩

/-! ### The grouping contract of the formatter -/

theorem dedupFirst_concat (l : List String) (x : String) :
    dedupFirst (l ++ [x]) =
      if x ∈ dedupFirst l then dedupFirst l else dedupFirst l ++ [x] := by
  unfold dedupFirst
  rw [List.foldl_append]
  rfl

theorem mem_foldl_dedup (l : List String) :
    ∀ (acc : List String) (x : String),
      x ∈ l.foldl (fun acc u => if u ∈ acc then acc else acc ++ [u]) acc ↔
        x ∈ acc ∨ x ∈ l := by
  induction l with
  | nil => intro acc x; simp
  | cons a t ih =>
    intro acc x
    rw [List.foldl_cons, ih]
    by_cases ha : a ∈ acc
    · rw [if_pos ha]
      constructor
      · rintro (h | h)
        · exact Or.inl h
        · exact Or.inr (List.mem_cons_of_mem a h)
      · rintro (h | h)
        · exact Or.inl h
        · rw [List.mem_cons] at h
          rcases h with rfl | h
          · exact Or.inl ha
          · exact Or.inr h
    · rw [if_neg ha]
      constructor
      · rintro (h | h)
        · rw [List.mem_append] at h
          rcases h with h | h
          · exact Or.inl h
          · rw [List.mem_singleton] at h
            exact Or.inr (h ▸ List.mem_cons_self a t)
        · exact Or.inr (List.mem_cons_of_mem a h)
      · rintro (h | h)
        · exact Or.inl (List.mem_append.mpr (Or.inl h))
        · rw [List.mem_cons] at h
          rcases h with rfl | h
          · exact Or.inl (by simp)
          · exact Or.inr h

theorem mem_dedupFirst (l : List String) (x : String) :
    x ∈ dedupFirst l ↔ x ∈ l := by
  simpa [dedupFirst] using mem_foldl_dedup l [] x

theorem nodup_foldl_dedup (l : List String) :
    ∀ acc : List String, acc.Nodup →
      (l.foldl (fun acc u => if u ∈ acc then acc else acc ++ [u]) acc).Nodup := by
  induction l with
  | nil => intro acc h; simpa using h
  | cons a t ih =>
    intro acc h
    rw [List.foldl_cons]
    by_cases ha : a ∈ acc
    · rw [if_pos ha]; exact ih acc h
    · rw [if_neg ha]
      refine ih _ ?_
      rw [List.nodup_append]
      refine ⟨h, List.nodup_singleton a, ?_⟩
      intro x hx hxa
      rw [List.mem_singleton] at hxa
      exact ha (hxa ▸ hx)

theorem nodup_dedupFirst (l : List String) : (dedupFirst l).Nodup :=
  nodup_foldl_dedup l [] List.nodup_nil

theorem containsKey_map (keys : List String)
    (f : String → List (String × Timestamp)) (u : String) :
    containsKey (keys.map (fun k => (k, f k))) u = true ↔ u ∈ keys := by
  unfold containsKey
  rw [List.any_eq_true]
  constructor
  · rintro ⟨p, hp, hbe⟩
    rw [List.mem_map] at hp
    obtain ⟨k, hk, rfl⟩ := hp
    rw [beq_iff_eq] at hbe
    exact hbe ▸ hk
  · intro hu
    exact ⟨(u, f u), List.mem_map_of_mem _ hu, by simp⟩

theorem addToGroup_map (keys : List String)
    (f : String → List (String × Timestamp)) (u : String)
    (pr : String × Timestamp) (hnd : keys.Nodup) (hu : u ∈ keys) :
    addToGroup (keys.map (fun k => (k, f k))) u pr =
      keys.map (fun k => (k, if k = u then f k ++ [pr] else f k)) := by
  induction keys with
  | nil => cases hu
  | cons k ks ih =>
    simp only [List.map_cons, addToGroup]
    by_cases hk : k = u
    · rw [if_pos hk, if_pos hk]
      subst hk
      congr 1
      refine (List.map_congr_left ?_).symm
      intro a ha
      have hne : ¬ a = k := fun e => (List.nodup_cons.mp hnd).1 (e ▸ ha)
      rw [if_neg hne]
    · rw [if_neg hk, if_neg hk]
      congr 1
      have hu' : u ∈ ks := by
        rw [List.mem_cons] at hu
        rcases hu with rfl | hu
        · exact absurd rfl hk
        · exact hu
      exact ih (List.nodup_cons.mp hnd).2 hu'

theorem specGroup_concat (l : List LinkRec) (r : LinkRec) :
    specGroup (l ++ [r]) = groupStep (specGroup l) r := by
  have hkeys : dedupFirst ((l ++ [r]).map (fun x => x.user)) =
      if r.user ∈ l.map (fun x => x.user)
      then dedupFirst (l.map (fun x => x.user))
      else dedupFirst (l.map (fun x => x.user)) ++ [r.user] := by
    rw [List.map_append, List.map_singleton, dedupFirst_concat]
    simp [mem_dedupFirst]
  by_cases hmem : r.user ∈ l.map (fun x => x.user)
  · have hck : containsKey (specGroup l) r.user = true := by
      unfold specGroup
      rw [containsKey_map, mem_dedupFirst]
      exact hmem
    unfold groupStep
    simp only [hck, if_true]
    unfold specGroup
    rw [hkeys, if_pos hmem,
      addToGroup_map _ _ _ _ (nodup_dedupFirst _)
        ((mem_dedupFirst _ _).mpr hmem)]
    apply List.map_congr_left
    intro u hu
    rw [List.filter_append]
    by_cases hur : u = r.user
    · subst hur
      simp
    · have hb : (r.user == u) = false := by
        rw [beq_eq_false_iff_ne]
        exact fun e => hur e.symm
      have hfr : (List.filter (fun x => x.user == u) [r]) = [] := by
        simp [List.filter, hb]
      rw [hfr, List.append_nil, if_neg hur]
  · have hck : containsKey (specGroup l) r.user = false := by
      rw [Bool.eq_false_iff]
      unfold specGroup
      rw [Ne, containsKey_map, mem_dedupFirst]
      exact hmem
    unfold groupStep
    simp only [hck, Bool.false_eq_true, if_false]
    unfold specGroup
    rw [hkeys, if_neg hmem, List.map_append]
    congr 1
    · apply List.map_congr_left
      intro u hu
      have hune : ¬ r.user = u := by
        intro e
        exact hmem (e ▸ (mem_dedupFirst _ _).mp hu)
      rw [List.filter_append]
      have hb : (r.user == u) = false := by
        rw [beq_eq_false_iff_ne]
        exact hune
      have hfr : (List.filter (fun x => x.user == u) [r]) = [] := by
        simp [List.filter, hb]
      rw [hfr, List.append_nil]
    · have hfl : l.filter (fun x => x.user == r.user) = [] := by
        rw [List.filter_eq_nil_iff]
        intro x hx hbe
        rw [beq_iff_eq] at hbe
        exact hmem (hbe ▸ List.mem_map_of_mem (fun y => y.user) hx)
      simp [List.filter_append, hfl, List.filter]

theorem groupByUser_eq_specGroup (links : List LinkRec) :
    groupByUser links = specGroup links := by
  induction links using List.reverseRecOn with
  | nil => rfl
  | append_singleton l r ih =>
    have hstep : groupByUser (l ++ [r]) = groupStep (groupByUser l) r := by
      simp [groupByUser, List.foldl_append]
    rw [hstep, ih, specGroup_concat]

/-- **C4.** `format_summary` groups records by contributor in
first-appearance order and preserves original input order within each
contributor's group: the grouping loop agrees with the spec's declarative
grouping (`specGroup`) on every input sequence; on the record sequence
`[(L1, alice, t1), (L2, bob, t2), (L3, alice, t3)]` the grouping lists
alice before bob with alice's block `[L1, L3]` in that order, and the
rendered summary lists alice's header and links before bob's. -/
theorem format_summary_groups_first_appearance :
    (∀ links : List LinkRec, groupByUser links = specGroup links) ∧
    (∀ (L1 L2 L3 : String) (t1 t2 t3 : Timestamp),
      groupByUser [⟨L1, "alice", t1⟩, ⟨L2, "bob", t2⟩, ⟨L3, "alice", t3⟩] =
        [("alice", [(L1, t1), (L3, t3)]), ("bob", [(L2, t2)])]) ∧
    format_summary [⟨"https://x.com/1", "alice", ⟨2024, 1, 2, 3, 4⟩⟩,
        ⟨"https://x.com/2", "bob", ⟨2024, 1, 2, 3, 5⟩⟩,
        ⟨"https://x.com/3", "alice", ⟨2024, 1, 2, 3, 6⟩⟩] =
      "📊 Twitter/X Links Summary:\n\n👤 alice:\n🔗 https://x.com/1\n📅 Shared on: 2024-01-02 03:04\n\n🔗 https://x.com/3\n📅 Shared on: 2024-01-02 03:06\n\n👤 bob:\n🔗 https://x.com/2\n📅 Shared on: 2024-01-02 03:05\n\nUse these links to engage and support! 🚀" := by
  refine ⟨groupByUser_eq_specGroup, ?_, by decide⟩
  intro L1 L2 L3 t1 t2 t3
  simp [groupByUser, groupStep, containsKey, addToGroup]

/-! ### Chunking and the empty-summary sentinel -/

theorem chunkAux_join : ∀ (fuel : Nat) (l : List Char), l.length ≤ fuel →
    (chunkAux fuel l).flatten = l := by
  intro fuel
  induction fuel with
  | zero =>
    intro l h
    cases l with
    | nil => rfl
    | cons c rest => simp at h
  | succ n ih =>
    intro l h
    cases l with
    | nil => rfl
    | cons c rest =>
      rw [chunkAux, List.flatten_cons,
        ih ((c :: rest).drop MAX_MESSAGE_LENGTH)
          (by simp only [List.length_drop, List.length_cons, MAX_MESSAGE_LENGTH] at h ⊢
              omega),
        List.take_append_drop]

theorem chunkAux_sizes : ∀ (fuel : Nat) (l ch : List Char),
    ch ∈ chunkAux fuel l → ch.length ≤ MAX_MESSAGE_LENGTH := by
  intro fuel
  induction fuel with
  | zero =>
    intro l ch h
    cases l with
    | nil => simp [chunkAux] at h
    | cons c rest => simp [chunkAux] at h
  | succ n ih =>
    intro l ch h
    cases l with
    | nil => simp [chunkAux] at h
    | cons c rest =>
      rw [chunkAux, List.mem_cons] at h
      rcases h with rfl | h
      · rw [List.length_take]
        exact inf_le_left
      · exact ih _ _ h

theorem chunkAux_count : ∀ (fuel : Nat) (l : List Char), l.length ≤ fuel →
    (chunkAux fuel l).length =
      (l.length + (MAX_MESSAGE_LENGTH - 1)) / MAX_MESSAGE_LENGTH := by
  intro fuel
  induction fuel with
  | zero =>
    intro l h
    cases l with
    | nil => rfl
    | cons c rest => simp at h
  | succ n ih =>
    intro l h
    cases l with
    | nil => rfl
    | cons c rest =>
      rw [chunkAux, List.length_cons,
        ih ((c :: rest).drop MAX_MESSAGE_LENGTH)
          (by simp only [List.length_drop, List.length_cons, MAX_MESSAGE_LENGTH] at h ⊢
              omega)]
      simp only [List.length_drop, List.length_cons, MAX_MESSAGE_LENGTH]
      omega

theorem join_map_mk : ∀ (L : List (List Char)) (acc : List Char),
    List.foldl (fun r s => r ++ s) (String.mk acc) (L.map (fun c => String.mk c)) =
      String.mk (acc ++ L.flatten) := by
  intro L
  induction L with
  | nil => intro acc; simp
  | cons a t ih =>
    intro acc
    rw [List.map_cons, List.foldl_cons]
    have : String.mk acc ++ String.mk a = String.mk (acc ++ a) := rfl
    rw [this, ih (acc ++ a), List.flatten_cons, List.append_assoc]

/-- **C8.** A summary string longer than the maximum chunk size is split
by `summary_command`'s slicing into `⌈len/maxLen⌉` chunks, each of length
at most `maxLen`, whose concatenation in order is exactly the original
string. -/
theorem summary_chunking_spec (s : String) (h : s.length > MAX_MESSAGE_LENGTH) :
    (split_message s).length =
      (s.length + (MAX_MESSAGE_LENGTH - 1)) / MAX_MESSAGE_LENGTH ∧
    (∀ ch ∈ split_message s, ch.length ≤ MAX_MESSAGE_LENGTH) ∧
    String.join (split_message s) = s := by
  refine ⟨?_, ?_, ?_⟩
  · unfold split_message
    rw [List.length_map, chunkAux_count _ _ le_rfl]
    rfl
  · intro ch hch
    unfold split_message at hch
    rw [List.mem_map] at hch
    obtain ⟨cl, hcl, rfl⟩ := hch
    exact chunkAux_sizes _ _ _ hcl
  · unfold split_message
    show List.foldl (fun r s => r ++ s) (String.mk [])
      ((chunkAux s.data.length s.data).map (fun c => String.mk c)) = s
    rw [join_map_mk, List.nil_append, chunkAux_join _ _ le_rfl]

/-- Witness for C8 at a concrete input of length 4001. -/
theorem summary_chunking_spec_check :
    (String.mk (List.replicate 4001 'a')).length > MAX_MESSAGE_LENGTH ∧
    ((split_message (String.mk (List.replicate 4001 'a'))).length =
      ((String.mk (List.replicate 4001 'a')).length + (MAX_MESSAGE_LENGTH - 1)) /
        MAX_MESSAGE_LENGTH ∧
     (∀ ch ∈ split_message (String.mk (List.replicate 4001 'a')),
        ch.length ≤ MAX_MESSAGE_LENGTH) ∧
     String.join (split_message (String.mk (List.replicate 4001 'a'))) =
       String.mk (List.replicate 4001 'a')) := by
  have hlen : (String.mk (List.replicate 4001 'a')).length > MAX_MESSAGE_LENGTH := by
    show (List.replicate 4001 'a').length > 4000
    rw [List.length_replicate]
    omega
  exact ⟨hlen, summary_chunking_spec _ hlen⟩

/-- **C9, counterexample.** `format_summary []` returns the formatter's own
inline sentinel `"No Twitter/X links have been shared yet! 🤔"`, which is
not the config constant `SUMMARY_NO_LINKS`
(`"No Twitter/X links have been shared in this chat yet! 🤔"`) that the
claim's sources identify as the no-links sentinel. -/
theorem format_summary_empty_ne_config_sentinel :
    format_summary [] ≠ SUMMARY_NO_LINKS := by decide

/-- **C9, amended.** `format_summary` applied to the empty sequence
returns its own fixed no-links sentinel, a string distinct from config's
`SUMMARY_NO_LINKS` (which the transport layer sends in the empty case). -/
theorem format_summary_empty_sentinel :
    format_summary [] = "No Twitter/X links have been shared yet! 🤔" ∧
    SUMMARY_NO_LINKS = "No Twitter/X links have been shared in this chat yet! 🤔" :=
  ⟨rfl, rfl⟩

end Raidmaster
